import Mathlib

/-!
Verification of `dolfinx_contact` core routines
(`src/cpp/utils.cpp`, `src/cpp/coefficients.cpp`).

Scalars are modelled as exact rationals (`ℚ`); the C++ code computes with
`double`, but every property studied here is a structural equality
(broadcasts, zero fills, index arithmetic, error dispatch), which is
value-exact and independent of the scalar representation.  Matrix, vector and
geometry-array types are abstract type parameters `M`, `V`, `C`, and the dense
linear-algebra kernels of `dolfinx`/`basix` (external collaborators, not code
of this repository) are abstract operations bundled in structures.
-/

namespace DolfinxContact

variable {M V C : Type}

/-- External dense kernels used by the source:
`CoordinateElement::compute_jacobian`, `compute_jacobian_inverse`,
`compute_jacobian_determinant`, `math::dot`,
`CoordinateElement::pull_back_affine` (one point: `X = K (x - x0)`) and
`CoordinateElement::x0`.  All are `dolfinx` collaborators, modelled as
abstract operations. -/
structure GeomKernel (M V C : Type) where
  compute_jacobian : M → C → M
  compute_jacobian_inverse : M → M
  compute_jacobian_determinant : M → ℚ
  dot : M → M → M
  pull_back_affine : M → V → V → V
  x0 : C → V

/-- The coordinate map (`dolfinx::fem::CoordinateElement`): affinity flag and
the tabulation / nonaffine (Newton) pull-back primitives the source calls.
`X0` is the reference point (`xt::zeros({1, tdim})`) at which the affine path
tabulates the gradients once; `tabulate_grad X` is the gradient block
`phi(range(1, tdim+1), ·)` of `cmap.tabulate(1, X)`, and `tabulate_grad2` the
second-derivative block `phi(range(tdim+1, ...), ·)` of `cmap.tabulate(2, X)`. -/
structure CMap (M V C : Type) where
  is_affine : Bool
  X0 : V
  tabulate_grad : V → M
  tabulate_grad2 : V → M
  pull_back_nonaffine : (ℕ → V) → C → ℕ → V

/-- Output of `pull_back`: per-point Jacobian `J`, inverse `K`, determinant
`detJ` and reference coordinates `X`.  The source writes the caller's buffers
in place for point slots `p < num_points`; `J` is first zero-filled wholesale
(`J.fill(0)`), while slots `p ≥ num_points` of `K` and `detJ` keep the
caller's previous content. -/
structure PullBackOut (M V : Type) where
  J : ℕ → M
  K : ℕ → M
  detJ : ℕ → ℚ
  X : ℕ → V

/-- Shallow embedding of `dolfinx_contact::pull_back` (src/cpp/utils.cpp,
lines 12-81).  Affine branch: tabulate gradients once at `X0`, compute
`J`, `K`, `detJ` once and broadcast them to every point slot; pull back all
points by the affine formula.  Non-affine branch: Newton pull-back of all
points, then per-point tabulation and Jacobian computation. -/
def pull_back [Zero M] (gk : GeomKernel M V C) (cmap : CMap M V C)
    (num_points : ℕ) (x : ℕ → V) (Kin : ℕ → M) (detJin : ℕ → ℚ)
    (coordinate_dofs : C) : PullBackOut M V :=
  let dphi_i := cmap.tabulate_grad cmap.X0
  if cmap.is_affine then
    let J0 := gk.compute_jacobian dphi_i coordinate_dofs
    let K0 := gk.compute_jacobian_inverse J0
    let detJ0 := gk.compute_jacobian_determinant J0
    { J := fun p => if p < num_points then J0 else 0
      K := fun p => if p < num_points then K0 else Kin p
      detJ := fun p => if p < num_points then detJ0 else detJin p
      X := fun p => gk.pull_back_affine K0 (gk.x0 coordinate_dofs) (x p) }
  else
    let X := cmap.pull_back_nonaffine x coordinate_dofs
    { J := fun p =>
        if p < num_points then
          gk.compute_jacobian (cmap.tabulate_grad (X p)) coordinate_dofs
        else 0
      K := fun p =>
        if p < num_points then
          gk.compute_jacobian_inverse
            (gk.compute_jacobian (cmap.tabulate_grad (X p)) coordinate_dofs)
        else Kin p
      detJ := fun p =>
        if p < num_points then
          gk.compute_jacobian_determinant
            (gk.compute_jacobian (cmap.tabulate_grad (X p)) coordinate_dofs)
        else detJin p
      X := X }

/-- Output of `pull_back_2`: as `PullBackOut` but with the second-derivative
tensor `H` instead of `detJ` (the source signature has no `detJ`). -/
structure PullBack2Out (M V : Type) where
  J : ℕ → M
  K : ℕ → M
  H : ℕ → M
  X : ℕ → V

/-- Shallow embedding of `dolfinx_contact::pull_back_2` (src/cpp/utils.cpp,
lines 84-160).  Affine branch: broadcast `J`, `K` as in `pull_back` and
`H.fill(0)` — no second-order tabulation, no Newton pull-back.  Non-affine
branch: Newton pull-back, tabulate to second order, fill `J`, `K`, `H` per
point. -/
def pull_back_2 [Zero M] (gk : GeomKernel M V C) (cmap : CMap M V C)
    (num_points : ℕ) (x : ℕ → V) (Kin : ℕ → M)
    (coordinate_dofs : C) : PullBack2Out M V :=
  let dphi_i := cmap.tabulate_grad cmap.X0
  if cmap.is_affine then
    let J0 := gk.compute_jacobian dphi_i coordinate_dofs
    let K0 := gk.compute_jacobian_inverse J0
    { J := fun p => if p < num_points then J0 else 0
      K := fun p => if p < num_points then K0 else Kin p
      H := fun _ => 0
      X := fun p => gk.pull_back_affine K0 (gk.x0 coordinate_dofs) (x p) }
  else
    let X := cmap.pull_back_nonaffine x coordinate_dofs
    { J := fun p =>
        if p < num_points then
          gk.compute_jacobian (cmap.tabulate_grad (X p)) coordinate_dofs
        else 0
      K := fun p =>
        if p < num_points then
          gk.compute_jacobian_inverse
            (gk.compute_jacobian (cmap.tabulate_grad (X p)) coordinate_dofs)
        else Kin p
      H := fun p =>
        if p < num_points then
          gk.compute_jacobian (cmap.tabulate_grad2 (X p)) coordinate_dofs
        else 0
      X := X }

/-- The finite element (`dolfinx::fem::FiniteElement`, an external
collaborator): sizes, reference tabulation, the cell-orientation dof
transformation (`get_dof_transformation_function`) and the push-forward map
(`element->map_fn`).  Tabulated arrays are modelled as total functions of
their indices: `tabulate nd X j q i l` is the value of basis function `i`,
derivative `j`, component `l` at point `X q`. -/
structure FiniteElement (M V : Type) where
  block_size : ℕ
  reference_value_size : ℕ
  value_size : ℕ
  space_dimension : ℕ
  tabulate : ℕ → (ℕ → V) → ℕ → ℕ → ℕ → ℕ → ℚ
  apply_dof_transformation : ℤ → (ℕ → ℕ → ℚ) → ℕ → ℕ → ℚ
  push_forward : (ℕ → ℕ → ℚ) → M → ℚ → M → ℕ → ℕ → ℚ

/-- A four-dimensional basis array: its shape and its entries. -/
structure BasisArray where
  shape : ℕ × ℕ × ℕ × ℕ
  entry : ℕ → ℕ → ℕ → ℕ → ℚ

/-- Shallow embedding of `dolfinx_contact::get_basis_functions`
(src/cpp/utils.cpp, lines 162-263).  A zero array of shape
`(num_derivatives*tdim + 1, num_points, space_dimension*block_size,
value_size*block_size)` is allocated first; a negative entity `index` returns
it unchanged.  Otherwise the points are pulled back, the element is
tabulated, per point the dof transformation and push-forward are applied, and
the blocked expansion loop `basis_array(k, p, i*bs + block, j*bs + block) =
basis_values(k, p, i, j)` fills the array — written here in closed form
(the written target indices `(a, b)` are exactly those with
`a % bs = b % bs`, with `i = a / bs`, `j = b / bs`). -/
def get_basis_functions [Zero M] (gk : GeomKernel M V C) (cmap : CMap M V C)
    (element : FiniteElement M V) (num_points : ℕ) (x : ℕ → V)
    (Kin : ℕ → M) (detJin : ℕ → ℚ) (coordinate_dofs : C)
    (index : ℤ) (perm : ℤ) (num_derivatives tdim : ℕ) : BasisArray :=
  let block_size := element.block_size
  let value_size := element.value_size / block_size
  let space_dimension := element.space_dimension / block_size
  if index < 0 then
    ⟨(num_derivatives * tdim + 1, num_points, space_dimension * block_size,
        value_size * block_size), fun _ _ _ _ => 0⟩
  else
    let pb := pull_back gk cmap num_points x Kin detJin coordinate_dofs
    let tabulated := element.tabulate num_derivatives pb.X
    let basis_values : ℕ → ℕ → ℕ → ℕ → ℚ := fun j q =>
      element.push_forward
        (element.apply_dof_transformation perm (fun i l => tabulated j q i l))
        (pb.J q) (pb.detJ q) (pb.K q)
    ⟨(num_derivatives * tdim + 1, num_points, space_dimension * block_size,
        value_size * block_size),
      fun k p a b =>
        if k < num_derivatives * tdim + 1 ∧ p < num_points
            ∧ a < space_dimension * block_size ∧ b < value_size * block_size
            ∧ a % block_size = b % block_size then
          basis_values k p (a / block_size) (b / block_size)
        else 0⟩

/-- Shallow embedding of `dolfinx_contact::compute_facet_jacobians`
(src/cpp/utils.cpp, lines 556-572): recompute `J` and `K` from the cell
geometry at quadrature point `q` (`dphi` is the tabulated gradient tensor,
viewed per point), form `J_tot = J · J_f` with the reference-facet Jacobian
`J_f` and return `|det(J_tot)|`.  The C++ overwrites its `J`, `K`, `J_tot`
buffers in place; the model returns them alongside the determinant. -/
def compute_facet_jacobians (gk : GeomKernel M V C) (q : ℕ)
    (J_f : M) (dphi : ℕ → M) (coords : C) : M × M × M × ℚ :=
  let J := gk.compute_jacobian (dphi q) coords
  let K := gk.compute_jacobian_inverse J
  let J_tot := gk.dot J J_f
  (J, K, J_tot, |gk.compute_jacobian_determinant J_tot|)

/-- Shallow embedding of `dolfinx_contact::get_update_jacobian_dependencies`
(src/cpp/utils.cpp, lines 574-607): a factory selecting once per coordinate
map.  An affine map gets a function returning its `detJ` argument unchanged
(all buffers untouched); a non-affine map gets the full
`compute_facet_jacobians` recomputation, which ignores the incoming `detJ`. -/
def get_update_jacobian_dependencies (gk : GeomKernel M V C) (cmap : CMap M V C) :
    ℕ → ℚ → M → M → M → M → (ℕ → M) → C → M × M × M × ℚ :=
  if cmap.is_affine then
    fun _q detJ J K J_tot _J_f _dphi _coords => (J, K, J_tot, detJ)
  else
    fun q _detJ _J _K _J_tot J_f dphi coords =>
      compute_facet_jacobians gk q J_f dphi coords

/-- The `fetch_cell` lambda of `pack_coefficient_quadrature`
(src/cpp/coefficients.cpp, lines 92-96): a cell integral uses the active
entity itself as the parent cell, with local index 0. -/
def fetch_cell (active_entities : List ℤ) (i : ℕ) : ℤ × ℕ :=
  (active_entities.getD i 0, 0)

/-- The `fetch_facet` lambda of `pack_coefficient_quadrature`
(src/cpp/coefficients.cpp, lines 107-120): translate the `i`-th active facet
into (adjacent parent cell, local position of the facet in that cell's facet
list).  `f_to_c` and `c_to_f` are the mesh connectivities (external
`AdjacencyList`s, modelled as functions to lists).  The
`assert(cells.size() == 1)` is modelled by returning `none` when the facet
does not have exactly one adjacent cell; `std::find`/`std::distance` becomes
`List.indexOf`. -/
def fetch_facet (active_entities : List ℤ) (f_to_c c_to_f : ℤ → List ℤ)
    (i : ℕ) : Option (ℤ × ℕ) :=
  let facet := active_entities.getD i 0
  let cells := f_to_c facet
  if cells.length = 1 then
    let cell := cells.getD 0 0
    let cell_facets := c_to_f cell
    some (cell, cell_facets.indexOf facet)
  else none

/-- Shallow embedding of `dolfinx_contact::pack_circumradius`
(src/cpp/coefficients.cpp, lines 272-362).  The very first statement throws
for a non-affine coordinate map; otherwise, for each active (cell,
local-facet) pair, the degree-0 quadrature Jacobian determinant feeds
`compute_circumradius` (defined in geometric_quantities.cpp, an external
input here, passed as a function).  `dphi_c` is the per-local-facet
tabulated gradient at the single quadrature point, `cell_coords` the
gathered coordinate-dof array of a cell; the stride of the packed result
is 1. -/
def pack_circumradius (gk : GeomKernel M V C) (cmap : CMap M V C)
    (compute_circumradius : ℚ → C → ℚ) (dphi_c : ℕ → M) (cell_coords : ℤ → C)
    (active_facets : List (ℤ × ℕ)) : Except String (List ℚ × ℕ) :=
  if cmap.is_affine = false then
    Except.error "Non-affine circumradius is not implemented"
  else
    Except.ok
      (active_facets.map (fun cl =>
        let J := gk.compute_jacobian (dphi_c cl.2) (cell_coords cl.1)
        let detJ := gk.compute_jacobian_determinant J
        compute_circumradius detJ (cell_coords cl.1)), 1)

/-- Shallow embedding of `dolfinx_contact::update_geometry`
(src/cpp/utils.cpp, lines 297-339).  `cell_dofs` is the displacement field's
dofmap (`dofmap->cell_dofs`), `dofs_x` the geometry dofmap
(`geometry.dofmap().links`), `bs` the dofmap block size, `u_data` the field's
dof-value array and `coords` the mesh's flat coordinate array.  A scratch
vector `dx` of zeros receives the displacement at every coordinate dof
(`dx[3*dofs_x[i]+j] = u_data[bs*dofs[i]+j]`), and `dx` is then added to the
coordinates in place (`std::transform` with `std::plus`). -/
def update_geometry (num_cells : ℕ) (cell_dofs dofs_x : ℕ → List ℕ) (bs : ℕ)
    (u_data : List ℚ) (coords : List ℚ) : List ℚ :=
  let dx0 : List ℚ := List.replicate coords.length 0
  let dx := (List.range num_cells).foldl (fun dx c =>
    (List.range (cell_dofs c).length).foldl (fun dx i =>
      (List.range bs).foldl (fun dx j =>
        dx.set (3 * (dofs_x c).getD i 0 + j)
          (u_data.getD (bs * (cell_dofs c).getD i 0 + j) 0)) dx) dx) dx0
  List.zipWith (· + ·) coords dx

/-- Key order used to model the external `dolfinx::argsort_radix` (called by
`sort_cells`): indices compared lexicographically by (key, index).  A stable
sort of indices by key — which is what the radix argsort is, per spec §4.5
("stable, linear-or-near-linear sort … for integer keys") — produces exactly
the sort by this total order. -/
def argLex (cells : List ℤ) (i j : ℕ) : Prop :=
  cells.getD i 0 < cells.getD j 0 ∨ (cells.getD i 0 = cells.getD j 0 ∧ i ≤ j)

instance (cells : List ℤ) : DecidableRel (argLex cells) := fun i j => by
  unfold argLex
  infer_instance

instance (cells : List ℤ) : IsTotal ℕ (argLex cells) where
  total i j := by
    unfold argLex
    rcases lt_trichotomy (cells.getD i 0) (cells.getD j 0) with h | h | h
    · exact Or.inl (Or.inl h)
    · rcases Nat.le_total i j with hij | hij
      · exact Or.inl (Or.inr ⟨h, hij⟩)
      · exact Or.inr (Or.inr ⟨h.symm, hij⟩)
    · exact Or.inr (Or.inl h)

instance (cells : List ℤ) : IsTrans ℕ (argLex cells) where
  trans i j k hij hjk := by
    unfold argLex at hij hjk ⊢
    rcases hij with h1 | ⟨h1, h1'⟩ <;> rcases hjk with h2 | ⟨h2, h2'⟩
    · exact Or.inl (h1.trans h2)
    · exact Or.inl (h2 ▸ h1)
    · exact Or.inl (h1 ▸ h2)
    · exact Or.inr ⟨h1.trans h2, h1'.trans h2'⟩

/-- The external `dolfinx::argsort_radix<std::int32_t>` (a collaborator, not
code of this repository): a stable argsort of the key array, modelled as the
(stable) insertion sort of the index list under the total order `argLex`. -/
def argsort_radix (cells : List ℤ) : List ℕ :=
  List.insertionSort (argLex cells) (List.range cells.length)

/-- Shallow embedding of `dolfinx_contact::sort_cells` (src/cpp/utils.cpp,
lines 266-294), returning `(perm, unique_cells, offsets)`.  The permutation
is written into the caller's `perm` span (returned here as the first
component); `unique_cells[i] = cells[perm[i]]` is the sorted copy; the loop
`if (unique_cells[i] != unique_cells[i+1]) offsets[++index] = i + 1` writes
the run boundaries into consecutive positions `1, 2, …` of the
`num_cells + 1`-zeros vector `offsets`, so the model carries the written
prefix `ws` and checks each write position (`index + 1 = ws.length + 1`)
against the vector's length, as it checks the final unconditional write
`offsets[index + 1] = num_cells`; a failed bounds check (out-of-bounds write
in the C++) yields `none`.  `std::unique` on the sorted copy is
`List.destutter (· ≠ ·)` (drop adjacent duplicates), and
`offsets.resize(unique_cells.size() + 1)` is `List.take`. -/
def sort_cells (cells : List ℤ) : Option (List ℕ × List ℤ × List ℕ) :=
  let num_cells := cells.length
  let perm := argsort_radix cells
  let unique0 := perm.map (fun i => cells.getD i 0)
  let loop := (List.range (num_cells - 1)).foldl
    (fun (acc : Option (List ℕ)) i =>
      acc.bind fun ws =>
        if unique0.getD i 0 ≠ unique0.getD (i + 1) 0 then
          if ws.length + 1 < num_cells + 1 then some (ws ++ [i + 1]) else none
        else some ws)
    (some [])
  loop.bind fun ws =>
    if ws.length + 1 < num_cells + 1 then
      let unique_cells := unique0.destutter (· ≠ ·)
      let offsets := ((0 :: ws ++ [num_cells])
        ++ List.replicate (num_cells - 1 - ws.length) 0).take (unique_cells.length + 1)
      some (perm, unique_cells, offsets)
    else none

/-- Proof-side recursion computing the run-boundary positions written by the
`sort_cells` loop for a list starting at absolute position `p`: position
`p + i + 1` is recorded whenever elements `i` and `i + 1` differ. -/
def bpos : List ℤ → ℕ → List ℕ
  | a :: b :: t, p =>
    if a ≠ b then (p + 1) :: bpos (b :: t) (p + 1) else bpos (b :: t) (p + 1)
  | _, _ => []

/-- Proof-side closed form of the boundary positions: the loop indices
`i < length - 1` at which adjacent elements differ, shifted by one. -/
def basePos (s : List ℤ) : List ℕ :=
  ((List.range (s.length - 1)).filter
    (fun i => s.getD i 0 ≠ s.getD (i + 1) 0)).map (· + 1)

variable {R : Type}

/-- Inputs of `pack_coefficient_quadrature` (src/cpp/coefficients.cpp,
lines 16-270), with the external collaborators abstracted.  `bs` is
`dofmap->bs()`, `vs` is `element->reference_value_size() / element->block_size()`,
`num_points` the quadrature-point count (`weights[0].size()`),
`reference_basis_values (entity_index, q, d, l)` the element tabulation at
the quadrature points of each local sub-entity, `cell_dofs` the dofmap
(`dofmap->cell_dofs`, block indices), `data` the field's dof-value array
(`coeff->x()->array()`), `get_cell_info` the per-entity (parent cell, local
sub-entity index) resolution selected by the integral-type switch
(`fetch_cell` / `fetch_facet`), and `num_active` the number of active
entities.  When `needs_dof_transformations` holds, the source recomputes
`J`, `K`, `detJ` per point, applies the orientation transformation and the
push-forward to the reference values; that external per-point pipeline is
abstracted as `physical_basis_values (cell, entity_index, q, d, j)`.  The
scalar type `R` is abstract (the C++ uses `PetscScalar`). -/
structure PackCtx (R : Type) where
  bs : ℕ
  vs : ℕ
  num_points : ℕ
  reference_basis_values : ℕ → ℕ → ℕ → ℕ → R
  needs_dof_transformations : Bool
  physical_basis_values : ℤ → ℕ → ℕ → ℕ → ℕ → R
  cell_dofs : ℤ → List ℕ
  data : List R
  get_cell_info : ℕ → ℤ × ℕ
  num_active : ℕ

/-- The basis factor of the accumulation: the two accumulation loops of the
source (lines 234-245 with dof transformations, lines 250-267 without) are
structurally identical and differ only in which basis array they read —
`basis_values` (transformed and pushed forward) or
`reference_basis_values`. -/
def effective_basis (ctx : PackCtx R) (cell : ℤ) (entity_index q d l : ℕ) : R :=
  if ctx.needs_dof_transformations then
    ctx.physical_basis_values cell entity_index q d l
  else
    ctx.reference_basis_values entity_index q d l

/-- The per-entity stride of the packed buffer:
`cstride = vs * bs * num_points` (line 139). -/
def cstride (ctx : PackCtx R) : ℕ := ctx.vs * ctx.bs * ctx.num_points

/-- The iteration space of the packing loops, flattened in source order:
entity `i` (outermost), then for that entity's parent cell the dof `d`, the
quadrature point `q`, the block component `k` and the value component `l`. -/
def pack_iter (ctx : PackCtx R) : List (ℕ × ℕ × ℕ × ℕ × ℕ) :=
  (List.range ctx.num_active).flatMap fun i =>
    (List.range (ctx.cell_dofs (ctx.get_cell_info i).1).length).flatMap fun d =>
      (List.range ctx.num_points).flatMap fun q =>
        (List.range ctx.bs).flatMap fun k =>
          (List.range ctx.vs).map fun l => (i, d, q, k, l)

/-- The output position written by iteration `(i, d, q, k, l)`:
`cstride * i + q * (bs * vs) + k + l`, exactly as in the source (lines 243
and 262) — note the last two components enter as `k + l`. -/
def pack_index (ctx : PackCtx R) (t : ℕ × ℕ × ℕ × ℕ × ℕ) : ℕ :=
  cstride ctx * t.1 + t.2.2.1 * (ctx.bs * ctx.vs) + t.2.2.2.1 + t.2.2.2.2

/-- The value accumulated by iteration `(i, d, q, k, l)`:
`basis(entity_index, q, d, l) * data[bs * dofs[d] + k]` (`pos_v = bs *
dofs[d]`, lines 238/256). -/
def pack_value [CommRing R] (ctx : PackCtx R) (t : ℕ × ℕ × ℕ × ℕ × ℕ) : R :=
  effective_basis ctx (ctx.get_cell_info t.1).1 (ctx.get_cell_info t.1).2
      t.2.2.1 t.2.1 t.2.2.2.2
    * ctx.data.getD (ctx.bs * (ctx.cell_dofs (ctx.get_cell_info t.1).1).getD t.2.1 0
        + t.2.2.2.1) 0

/-- Shallow embedding of the accumulation of
`dolfinx_contact::pack_coefficient_quadrature`
(src/cpp/coefficients.cpp): the output vector of
`num_active * vs * bs * num_points` zeros (line 137) receives
`coefficients[pack_index t] += pack_value t` over the nested loops,
flattened here into one fold over `pack_iter`. -/
def pack_coefficient_quadrature [CommRing R] (ctx : PackCtx R) : List R :=
  (pack_iter ctx).foldl
    (fun coefficients t =>
      coefficients.set (pack_index ctx t)
        (coefficients.getD (pack_index ctx t) 0 + pack_value ctx t))
    (List.replicate (ctx.num_active * ctx.vs * ctx.bs * ctx.num_points) 0)

/-- Counterexample context for the constant-packing claim: one cell-integral
entity, one quadrature point, one dof, block size 2 AND value size 2, no dof
transformations, basis identically 1 (which reproduces constants:
`sum over the single dof = 1`), and the constant field value 1. -/
def ctxCex : PackCtx ℤ where
  bs := 2
  vs := 2
  num_points := 1
  reference_basis_values := fun _ _ _ _ => 1
  needs_dof_transformations := false
  physical_basis_values := fun _ _ _ _ _ => 0
  cell_dofs := fun _ => [0]
  data := [1, 1]
  get_cell_info := fun _ => (0, 0)
  num_active := 1

/-- Witness context for the amended constant-packing claim: as `ctxCex` but
with block size 1 and value size 1, and constant field value 7. -/
def ctxW : PackCtx ℤ where
  bs := 1
  vs := 1
  num_points := 1
  reference_basis_values := fun _ _ _ _ => 1
  needs_dof_transformations := false
  physical_basis_values := fun _ _ _ _ _ => 0
  cell_dofs := fun _ => [0]
  data := [7]
  get_cell_info := fun _ => (0, 0)
  num_active := 1

/-- A concrete geometric kernel over `ℚ`, used to instantiate witnesses. -/
def gkQ : GeomKernel ℚ ℚ ℚ :=
  ⟨fun a _ => a, id, id, fun a b => a * b, fun _ _ x => x, id⟩

/-- A concrete affine coordinate map over `ℚ`, used in witnesses. -/
def cmapAffineQ : CMap ℚ ℚ ℚ := ⟨true, 0, fun _ => 1, fun _ => 2, fun _ _ _ => 0⟩

/-- A concrete non-affine coordinate map over `ℚ`, used in witnesses. -/
def cmapNonAffineQ : CMap ℚ ℚ ℚ := ⟨false, 0, fun _ => 1, fun _ => 2, fun _ _ _ => 0⟩

/-- A concrete finite element over `ℚ` (block size 2), used in witnesses. -/
def elemQ : FiniteElement ℚ ℚ :=
  ⟨2, 2, 2, 4, fun _ _ _ _ _ _ => 1, fun _ f => f, fun U _ _ _ => U⟩

/-- A concrete facet-to-cell connectivity (facet 0 touches exactly cell 7),
used in witnesses. -/
def f_to_cW : ℤ → List ℤ := fun f => if f = 0 then [7] else []

/-- A concrete cell-to-facet connectivity (cell 7 has facets 5 and 0), used
in witnesses. -/
def c_to_fW : ℤ → List ℤ := fun c => if c = 7 then [5, 0] else []

end DolfinxContact

namespace DolfinxContact

/-- C3: for an affine coordinate map, `pull_back` computes the Jacobian once
and writes identical `J`, `K`, `detJ` values into every point slot
`0 ≤ p < num_points`; in particular the sign of `detJ` is the same at every
quadrature point of one affine cell. -/
theorem pull_back_affine_broadcast {M V C : Type} [Zero M]
    (gk : GeomKernel M V C) (cmap : CMap M V C) (num_points : ℕ)
    (x : ℕ → V) (Kin : ℕ → M) (detJin : ℕ → ℚ) (coordinate_dofs : C)
    (haff : cmap.is_affine = true) (p : ℕ) (hp : p < num_points) :
    (pull_back gk cmap num_points x Kin detJin coordinate_dofs).J p
      = (pull_back gk cmap num_points x Kin detJin coordinate_dofs).J 0 ∧
    (pull_back gk cmap num_points x Kin detJin coordinate_dofs).K p
      = (pull_back gk cmap num_points x Kin detJin coordinate_dofs).K 0 ∧
    (pull_back gk cmap num_points x Kin detJin coordinate_dofs).detJ p
      = (pull_back gk cmap num_points x Kin detJin coordinate_dofs).detJ 0 ∧
    (0 < (pull_back gk cmap num_points x Kin detJin coordinate_dofs).detJ p ↔
      0 < (pull_back gk cmap num_points x Kin detJin coordinate_dofs).detJ 0) ∧
    ((pull_back gk cmap num_points x Kin detJin coordinate_dofs).detJ p < 0 ↔
      (pull_back gk cmap num_points x Kin detJin coordinate_dofs).detJ 0 < 0) := by
  have h0 : 0 < num_points := Nat.lt_of_le_of_lt (Nat.zero_le p) hp
  simp [pull_back, haff, hp, h0]

/-- Closed witness for `pull_back_affine_broadcast` at a concrete affine map
with two points. -/
theorem pull_back_affine_broadcast_witness :
    (cmapAffineQ.is_affine = true) ∧ (1 < 2) ∧
    (pull_back gkQ cmapAffineQ 2 (fun _ => 0) (fun _ => 0) (fun _ => 0) 0).detJ 1
      = (pull_back gkQ cmapAffineQ 2 (fun _ => 0) (fun _ => 0) (fun _ => 0) 0).detJ 0 :=
  ⟨rfl, by decide,
    (pull_back_affine_broadcast gkQ cmapAffineQ 2 _ _ _ _ rfl 1 (by decide)).2.2.1⟩

/-- C7: for an affine coordinate map, `pull_back_2` produces a Hessian output
`H` that is identically zero at every point, and the result does not depend
on the second-order tabulation (`tabulate_grad2`) or on the Newton pull-back
(`pull_back_nonaffine`) at all: replacing those two components of the
coordinate map leaves the output unchanged. -/
theorem pull_back_2_affine_hessian_zero {M V C : Type} [Zero M]
    (gk : GeomKernel M V C) (cmap : CMap M V C) (num_points : ℕ)
    (x : ℕ → V) (Kin : ℕ → M) (coordinate_dofs : C)
    (haff : cmap.is_affine = true) :
    (∀ p, (pull_back_2 gk cmap num_points x Kin coordinate_dofs).H p = 0) ∧
    (∀ (g2 : V → M) (pb : (ℕ → V) → C → ℕ → V),
      pull_back_2 gk { cmap with tabulate_grad2 := g2, pull_back_nonaffine := pb }
          num_points x Kin coordinate_dofs
        = pull_back_2 gk cmap num_points x Kin coordinate_dofs) := by
  constructor
  · intro p; simp [pull_back_2, haff]
  · intro g2 pb; simp [pull_back_2, haff]

/-- Closed witness for `pull_back_2_affine_hessian_zero` at a concrete affine
map. -/
theorem pull_back_2_affine_hessian_zero_witness :
    (cmapAffineQ.is_affine = true) ∧
    (pull_back_2 gkQ cmapAffineQ 3 (fun _ => 0) (fun _ => 0) 0).H 1 = 0 :=
  ⟨rfl, (pull_back_2_affine_hessian_zero gkQ cmapAffineQ 3 _ _ _ rfl).1 1⟩

/-- Helper: `getD` below the length is `getElem`. -/
theorem getD_of_lt {α : Type} (l : List α) (n : ℕ) (d : α) (h : n < l.length) :
    l.getD n d = l[n] := by
  simp [List.getD_eq_getElem?_getD, List.getElem?_eq_getElem h]

/-- Helper: `getD` at or beyond the length is the default. -/
theorem getD_of_le {α : Type} (l : List α) (n : ℕ) (d : α) (h : l.length ≤ n) :
    l.getD n d = d := by
  simp [List.getD_eq_getElem?_getD, List.getElem?_eq_none h]

/-- Helper: a `foldl` whose step preserves a predicate preserves it. -/
theorem foldl_preserves {α β : Type} {P : α → Prop} {f : α → β → α}
    (h : ∀ a b, P a → P (f a b)) :
    ∀ (l : List β) (a : α), P a → P (l.foldl f a) := by
  intro l
  induction l with
  | nil => exact fun a ha => ha
  | cons b t ih => exact fun a ha => ih (f a b) (h a b ha)

/-- Helper: writing a `0` anywhere into an all-zero list is a no-op. -/
theorem set_zero_replicate (n k : ℕ) :
    (List.replicate n (0 : ℚ)).set k 0 = List.replicate n 0 := by
  induction n generalizing k with
  | zero => rfl
  | succ m ih => cases k <;> simp [List.replicate_succ, List.set, ih]

/-- Helper: adding an all-zero list changes nothing. -/
theorem zipWith_add_replicate_zero (l : List ℚ) :
    List.zipWith (· + ·) l (List.replicate l.length 0) = l := by
  induction l with
  | nil => rfl
  | cons a t ih => simp [List.replicate_succ, ih]

/-- C4: for every negative entity index, `get_basis_functions` returns an
all-zero buffer of the exact expected shape `(num_derivatives*tdim + 1,
num_points, space_dimension*block_size, value_size*block_size)` (sizes per
block, as the source divides them) — a documented no-op sentinel, not an
error. -/
theorem get_basis_functions_negative_index {M V C : Type} [Zero M]
    (gk : GeomKernel M V C) (cmap : CMap M V C) (element : FiniteElement M V)
    (num_points : ℕ) (x : ℕ → V) (Kin : ℕ → M) (detJin : ℕ → ℚ)
    (coordinate_dofs : C) (index perm : ℤ) (num_derivatives tdim : ℕ)
    (hneg : index < 0) :
    (get_basis_functions gk cmap element num_points x Kin detJin
        coordinate_dofs index perm num_derivatives tdim).shape
      = (num_derivatives * tdim + 1, num_points,
          element.space_dimension / element.block_size * element.block_size,
          element.value_size / element.block_size * element.block_size) ∧
    ∀ k p a b,
      (get_basis_functions gk cmap element num_points x Kin detJin
          coordinate_dofs index perm num_derivatives tdim).entry k p a b = 0 := by
  constructor
  · simp [get_basis_functions, hneg]
  · intro k p a b
    simp [get_basis_functions, hneg]

/-- Closed witness for `get_basis_functions_negative_index` at index `-1`. -/
theorem get_basis_functions_negative_index_witness :
    ((-1 : ℤ) < 0) ∧
    (get_basis_functions gkQ cmapAffineQ elemQ 3 (fun _ => 0) (fun _ => 0)
        (fun _ => 0) 0 (-1) 7 1 2).shape = (3, 3, 4, 2) ∧
    (get_basis_functions gkQ cmapAffineQ elemQ 3 (fun _ => 0) (fun _ => 0)
        (fun _ => 0) 0 (-1) 7 1 2).entry 0 1 2 1 = 0 :=
  ⟨by decide,
   (get_basis_functions_negative_index gkQ cmapAffineQ elemQ 3 _ _ _ 0
      (-1) 7 1 2 (by decide)).1,
   (get_basis_functions_negative_index gkQ cmapAffineQ elemQ 3 _ _ _ 0
      (-1) 7 1 2 (by decide)).2 0 1 2 1⟩

/-- C5: `get_update_jacobian_dependencies` selects once per coordinate map:
for an affine map it returns a function that returns its `detJ` argument
unchanged (buffers untouched), and for a non-affine map it returns a
function that recomputes `J` and `K` from the cell geometry at the given
quadrature point, forms `J_tot = J · J_f` with the reference-facet Jacobian
and returns `|det(J_tot)|`, ignoring the incoming `detJ`. -/
theorem get_update_jacobian_dependencies_spec {M V C : Type}
    (gk : GeomKernel M V C) (cmap : CMap M V C) :
    (cmap.is_affine = true →
      ∀ (q : ℕ) (detJ : ℚ) (J K J_tot J_f : M) (dphi : ℕ → M) (coords : C),
        get_update_jacobian_dependencies gk cmap q detJ J K J_tot J_f dphi coords
          = (J, K, J_tot, detJ)) ∧
    (cmap.is_affine = false →
      ∀ (q : ℕ) (detJ : ℚ) (J K J_tot J_f : M) (dphi : ℕ → M) (coords : C),
        get_update_jacobian_dependencies gk cmap q detJ J K J_tot J_f dphi coords
          = compute_facet_jacobians gk q J_f dphi coords ∧
        (get_update_jacobian_dependencies gk cmap q detJ J K J_tot J_f dphi coords).2.2.2
          = |gk.compute_jacobian_determinant
              (gk.dot (gk.compute_jacobian (dphi q) coords) J_f)| ∧
        ∀ detJ' : ℚ,
          get_update_jacobian_dependencies gk cmap q detJ J K J_tot J_f dphi coords
            = get_update_jacobian_dependencies gk cmap q detJ' J K J_tot J_f dphi coords) := by
  constructor
  · intro h q detJ J K J_tot J_f dphi coords
    simp [get_update_jacobian_dependencies, h]
  · intro h q detJ J K J_tot J_f dphi coords
    refine ⟨by simp [get_update_jacobian_dependencies, h], ?_, ?_⟩
    · simp [get_update_jacobian_dependencies, h, compute_facet_jacobians]
    · intro detJ'
      simp [get_update_jacobian_dependencies, h]

/-- Closed witness for `get_update_jacobian_dependencies_spec`: the affine
selection passes `detJ` through; the non-affine selection ignores it. -/
theorem get_update_jacobian_dependencies_spec_witness :
    (cmapAffineQ.is_affine = true) ∧
    get_update_jacobian_dependencies gkQ cmapAffineQ 0 5 1 2 3 4 (fun _ => 0) 0
      = (1, 2, 3, 5) ∧
    (cmapNonAffineQ.is_affine = false) ∧
    get_update_jacobian_dependencies gkQ cmapNonAffineQ 0 99 1 2 3 5 (fun _ => 3) 0
      = get_update_jacobian_dependencies gkQ cmapNonAffineQ 0 42 1 2 3 5 (fun _ => 3) 0 :=
  ⟨rfl,
   (get_update_jacobian_dependencies_spec gkQ cmapAffineQ).1 rfl 0 5 1 2 3 4 (fun _ => 0) 0,
   rfl,
   ((get_update_jacobian_dependencies_spec gkQ cmapNonAffineQ).2 rfl 0 99 1 2 3 5
      (fun _ => 3) 0).2.2 42⟩

/-- C6: under the precondition that every active facet is a boundary facet
with exactly one adjacent cell, and with mutually consistent facet↔cell
connectivity, `fetch_facet` succeeds for every active facet (the internal
single-adjacent-cell assertion cannot fail) and the facet is found in the
parent cell's facet list at the returned local index. -/
theorem fetch_facet_wellDefined (active_entities : List ℤ)
    (f_to_c c_to_f : ℤ → List ℤ)
    (hcons : ∀ f c, c ∈ f_to_c f → f ∈ c_to_f c)
    (hbdry : ∀ i, i < active_entities.length →
      (f_to_c (active_entities.getD i 0)).length = 1)
    (i : ℕ) (hi : i < active_entities.length) :
    ∃ cell local_index,
      fetch_facet active_entities f_to_c c_to_f i = some (cell, local_index) ∧
      local_index < (c_to_f cell).length ∧
      (c_to_f cell).getD local_index 0 = active_entities.getD i 0 := by
  have h1 := hbdry i hi
  have h0 : 0 < (f_to_c (active_entities.getD i 0)).length := by
    rw [h1]; exact Nat.one_pos
  have hmemc : (f_to_c (active_entities.getD i 0)).getD 0 0
      ∈ f_to_c (active_entities.getD i 0) := by
    rw [getD_of_lt _ _ _ h0]
    exact List.getElem_mem _
  have hmemf : active_entities.getD i 0
      ∈ c_to_f ((f_to_c (active_entities.getD i 0)).getD 0 0) := hcons _ _ hmemc
  have hlt := List.indexOf_lt_length.2 hmemf
  refine ⟨(f_to_c (active_entities.getD i 0)).getD 0 0,
    (c_to_f ((f_to_c (active_entities.getD i 0)).getD 0 0)).indexOf
      (active_entities.getD i 0), ?_, hlt, ?_⟩
  · simp only [fetch_facet]
    rw [if_pos h1]
  · rw [getD_of_lt _ _ _ hlt]
    exact List.getElem_indexOf hlt

/-- Closed witness for `fetch_facet_wellDefined` on a one-facet, one-cell
mesh: facet 0 is adjacent to cell 7 only and sits at local index 1 in cell
7's facet list. -/
theorem fetch_facet_wellDefined_witness :
    ∃ cell local_index,
      fetch_facet [0] f_to_cW c_to_fW 0 = some (cell, local_index) ∧
      local_index < (c_to_fW cell).length ∧
      (c_to_fW cell).getD local_index 0 = ([0] : List ℤ).getD 0 0 :=
  fetch_facet_wellDefined [0] f_to_cW c_to_fW
    (by
      intro f c h
      by_cases hf : f = 0
      · subst hf
        simp [f_to_cW] at h
        subst h
        simp [c_to_fW]
      · simp [f_to_cW, hf] at h)
    (by
      intro i hi
      simp only [List.length_singleton] at hi
      have : i = 0 := by omega
      subst this
      simp [f_to_cW])
    0 (by decide)

/-- C8: on a non-affine coordinate map, `pack_circumradius` raises the
unsupported-operation error before computing anything — never a silent
approximation. -/
theorem pack_circumradius_nonaffine_error {M V C : Type}
    (gk : GeomKernel M V C) (cmap : CMap M V C)
    (compute_circumradius : ℚ → C → ℚ) (dphi_c : ℕ → M)
    (cell_coords : ℤ → C) (active_facets : List (ℤ × ℕ))
    (h : cmap.is_affine = false) :
    pack_circumradius gk cmap compute_circumradius dphi_c cell_coords active_facets
      = Except.error "Non-affine circumradius is not implemented" := by
  simp [pack_circumradius, h]

/-- Closed witness for `pack_circumradius_nonaffine_error` at a concrete
non-affine map. -/
theorem pack_circumradius_nonaffine_error_witness :
    (cmapNonAffineQ.is_affine = false) ∧
    pack_circumradius gkQ cmapNonAffineQ (fun d _ => d) (fun _ => 1)
        (fun _ => 0) [(0, 0)]
      = Except.error "Non-affine circumradius is not implemented" :=
  ⟨rfl, pack_circumradius_nonaffine_error gkQ cmapNonAffineQ _ _ _ _ rfl⟩

/-- C9: `update_geometry` applied with a displacement field whose dof values
are all zero leaves every entry of the stored coordinate array identical to
its value before the call. -/
theorem update_geometry_zero_displacement (num_cells : ℕ)
    (cell_dofs dofs_x : ℕ → List ℕ) (bs : ℕ) (u_data coords : List ℚ)
    (hzero : ∀ z ∈ u_data, z = 0) :
    update_geometry num_cells cell_dofs dofs_x bs u_data coords = coords := by
  have hz : ∀ k, u_data.getD k 0 = 0 := by
    intro k
    by_cases h : k < u_data.length
    · rw [getD_of_lt _ _ _ h]
      exact hzero _ (List.getElem_mem h)
    · exact getD_of_le _ _ _ (Nat.le_of_not_lt h)
  show List.zipWith (· + ·) coords _ = coords
  have hdx :
      ((List.range num_cells).foldl (fun dx c =>
        (List.range (cell_dofs c).length).foldl (fun dx i =>
          (List.range bs).foldl (fun dx j =>
            dx.set (3 * (dofs_x c).getD i 0 + j)
              (u_data.getD (bs * (cell_dofs c).getD i 0 + j) 0)) dx) dx)
        (List.replicate coords.length (0 : ℚ)))
      = List.replicate coords.length (0 : ℚ) := by
    apply foldl_preserves (P := fun dx => dx = List.replicate coords.length (0 : ℚ))
    · intro dx c hdx
      apply foldl_preserves (P := fun dx => dx = List.replicate coords.length (0 : ℚ))
      · intro dx i hdx
        apply foldl_preserves (P := fun dx => dx = List.replicate coords.length (0 : ℚ))
        · intro dx j hdx
          rw [hdx, hz]
          exact set_zero_replicate _ _
        · exact hdx
      · exact hdx
    · rfl
  rw [hdx, zipWith_add_replicate_zero]

/-- Closed witness for `update_geometry_zero_displacement` on a small
two-cell geometry with an all-zero displacement. -/
theorem update_geometry_zero_displacement_witness :
    (∀ z ∈ ([0, 0, 0, 0] : List ℚ), z = 0) ∧
    update_geometry 2 (fun _ => [0, 1]) (fun c => [c, c + 1]) 2
        [0, 0, 0, 0] [1, 2, 3, 4, 5, 6] = [1, 2, 3, 4, 5, 6] :=
  ⟨by decide,
   update_geometry_zero_displacement 2 (fun _ => [0, 1]) (fun c => [c, c + 1]) 2
     [0, 0, 0, 0] [1, 2, 3, 4, 5, 6] (by decide)⟩

theorem bpos_nil (p : ℕ) : bpos [] p = [] := rfl

theorem bpos_singleton (a : ℤ) (p : ℕ) : bpos [a] p = [] := rfl

theorem bpos_cons_cons (a b : ℤ) (t : List ℤ) (p : ℕ) :
    bpos (a :: b :: t) p
      = if a ≠ b then (p + 1) :: bpos (b :: t) (p + 1) else bpos (b :: t) (p + 1) := rfl

theorem bpos_mem_gt : ∀ (s : List ℤ) (p x : ℕ), x ∈ bpos s p → p < x
  | [], _, _, h => by simp [bpos_nil] at h
  | [_], _, _, h => by simp [bpos_singleton] at h
  | a :: b :: t, p, x, h => by
    rw [bpos_cons_cons] at h
    by_cases hab : a ≠ b
    · rw [if_pos hab] at h
      rcases List.mem_cons.1 h with rfl | h
      · omega
      · have := bpos_mem_gt (b :: t) (p + 1) x h
        omega
    · rw [if_neg hab] at h
      have := bpos_mem_gt (b :: t) (p + 1) x h
      omega

theorem bpos_length : ∀ (s : List ℤ), s ≠ [] → ∀ (p : ℕ),
    (bpos s p).length + 1 = (s.destutter (· ≠ ·)).length
  | [], h, _ => absurd rfl h
  | [a], _, p => by simp [bpos_singleton]
  | a :: b :: t, _, p => by
    by_cases hab : a ≠ b
    · rw [bpos_cons_cons, if_pos hab, List.destutter_cons_cons, if_pos hab]
      simp only [List.length_cons, ← List.destutter_cons']
      rw [← bpos_length (b :: t) (by simp) (p + 1)]
    · rw [bpos_cons_cons, if_neg hab, List.destutter_cons_cons, if_neg hab]
      push_neg at hab
      subst hab
      rw [← List.destutter_cons']
      exact bpos_length (a :: t) (by simp) (p + 1)



theorem destutter'_head {α : Type} (R : α → α → Prop) [DecidableRel R] (a : α) :
    ∀ l : List α, ∃ t, l.destutter' R a = a :: t
  | [] => ⟨[], rfl⟩
  | b :: l => by
    by_cases h : R a b
    · exact ⟨l.destutter' R b, List.destutter'_cons_pos l h⟩
    · obtain ⟨t, ht⟩ := destutter'_head R a l
      exact ⟨t, by rw [List.destutter'_cons_neg l h, ht]⟩

theorem chain'_and {α : Type} {R S : α → α → Prop} :
    ∀ (l : List α), l.Chain' R → l.Chain' S → l.Chain' (fun a b => R a b ∧ S a b)
  | [], _, _ => List.chain'_nil
  | [_], _, _ => List.chain'_singleton _
  | a :: b :: t, hR, hS => by
    rw [List.chain'_cons] at hR hS ⊢
    exact ⟨⟨hR.1, hS.1⟩, chain'_and (b :: t) hR.2 hS.2⟩

theorem destutter_sorted_lt (s : List ℤ) (hs : s.Sorted (· ≤ ·)) :
    (s.destutter (· ≠ ·)).Sorted (· < ·) := by
  have hsub := List.destutter_sublist (R := (· ≠ ·)) s
  have hle : (s.destutter (· ≠ ·)).Sorted (· ≤ ·) := hs.sublist hsub
  have hne := List.destutter_is_chain' (· ≠ ·) s
  have hand := chain'_and _ hle.chain' hne
  have hlt : (s.destutter (· ≠ ·)).Chain' (· < ·) :=
    hand.imp (fun _ _ h => lt_of_le_of_ne h.1 h.2)
  exact List.chain'_iff_pairwise.mp hlt

theorem mem_destutter_of_sorted : ∀ (s : List ℤ), s.Sorted (· ≤ ·) →
    ∀ x ∈ s, x ∈ s.destutter (· ≠ ·)
  | [], _, x, hx => by simp at hx
  | [a], _, x, hx => by simpa using hx
  | a :: b :: t, hs, x, hx => by
    have hs' : (b :: t).Sorted (· ≤ ·) := (List.sorted_cons.mp hs).2
    by_cases hab : a ≠ b
    · rw [List.destutter_cons_cons, if_pos hab, ← List.destutter_cons']
      rcases List.mem_cons.1 hx with rfl | hx
      · exact List.mem_cons_self _ _
      · exact List.mem_cons_of_mem _ (mem_destutter_of_sorted (b :: t) hs' x hx)
    · push_neg at hab
      subst hab
      rw [List.destutter_cons_cons, if_neg (by simp), ← List.destutter_cons']
      rcases List.mem_cons.1 hx with rfl | hx
      · exact mem_destutter_of_sorted (x :: t) hs' x (List.mem_cons_self _ _)
      · exact mem_destutter_of_sorted (a :: t) hs' x hx

theorem sum_map_add (l : List ℤ) (f g : ℤ → ℕ) :
    (l.map (fun v => f v + g v)).sum = (l.map f).sum + (l.map g).sum := by
  induction l with
  | nil => simp
  | cons b t ih => simp [ih]; omega

theorem indicator_sum (l : List ℤ) (a : ℤ) :
    (l.map (fun v => if a = v then (1 : ℕ) else 0)).sum = l.count a := by
  induction l with
  | nil => simp
  | cons b t ih =>
    rw [List.map_cons, List.sum_cons, ih, List.count_cons]
    by_cases h : a = b
    · simp [h]
      omega
    · simp [h, Ne.symm h]





theorem head_ge (s : List ℤ) (q : ℕ) :
    q ≤ (bpos s q ++ [q + s.length]).getD 0 0 := by
  cases h : bpos s q with
  | nil => simp [h]
  | cons x xs =>
    have hx : q < x := bpos_mem_gt s q x (by rw [h]; exact List.mem_cons_self _ _)
    simp [h]
    omega

theorem destutter_count_sum : ∀ (s : List ℤ), s.Sorted (· ≤ ·) →
    ((s.destutter (· ≠ ·)).map (fun v => s.count v)).sum = s.length
  | [], _ => by simp
  | [a], _ => by simp
  | a :: b :: t, hs => by
    have hs' : (b :: t).Sorted (· ≤ ·) := (List.sorted_cons.mp hs).2
    by_cases hab : a = b
    · subst hab
      rw [List.destutter_cons_cons, if_neg (by simp), ← List.destutter_cons']
      have hsplit : ∀ v ∈ (a :: t).destutter (· ≠ ·),
          (a :: a :: t).count v = (a :: t).count v + (fun v => if a = v then 1 else 0) v := by
        intro v _
        rw [List.count_cons]
        by_cases h : a = v <;> simp [h]
      rw [List.map_congr_left hsplit, sum_map_add, destutter_count_sum (a :: t) hs',
        indicator_sum]
      have hmem : a ∈ (a :: t).destutter (· ≠ ·) :=
        mem_destutter_of_sorted (a :: t) hs' a (List.mem_cons_self _ _)
      have hnd : ((a :: t).destutter (· ≠ ·)).Nodup :=
        (destutter_sorted_lt (a :: t) hs').imp (fun h => ne_of_lt h)
      rw [List.count_eq_one_of_mem hnd hmem]
      simp
    · have haltb : a < b :=
        lt_of_le_of_ne ((List.sorted_cons.mp hs).1 b (List.mem_cons_self _ _)) hab
      have hstrict : ∀ x ∈ b :: t, a < x := by
        intro x hx
        rcases List.mem_cons.1 hx with rfl | hx
        · exact haltb
        · exact lt_of_lt_of_le haltb ((List.sorted_cons.mp hs').1 x hx)
      have hnotin : a ∉ b :: t := fun h => lt_irrefl a (hstrict a h)
      rw [List.destutter_cons_cons, if_pos hab, ← List.destutter_cons',
        List.map_cons, List.sum_cons]
      have hcount_a : (a :: b :: t).count a = 1 := by
        rw [List.count_cons, List.count_eq_zero_of_not_mem hnotin]
        simp
      have hsplit : ∀ v ∈ (b :: t).destutter (· ≠ ·),
          (a :: b :: t).count v = (b :: t).count v := by
        intro v hv
        have hvmem : v ∈ b :: t := (List.destutter_sublist _ _).subset hv
        have hav : a ≠ v := ne_of_lt (hstrict v hvmem)
        rw [List.count_cons]
        simp [hav]
      rw [hcount_a, List.map_congr_left hsplit, destutter_count_sum (b :: t) hs']
      simp
      omega



theorem bpos_count : ∀ (s : List ℤ), s.Sorted (· ≤ ·) → ∀ (p j : ℕ),
    j < (s.destutter (· ≠ ·)).length →
    (p :: bpos s p ++ [p + s.length]).getD (j + 1) 0
      - (p :: bpos s p ++ [p + s.length]).getD j 0
    = s.count ((s.destutter (· ≠ ·)).getD j 0)
  | [], _, p, j, hj => by simp at hj
  | [a], _, p, j, hj => by
    simp only [List.destutter_singleton, List.length_singleton] at hj
    have hj0 : j = 0 := by omega
    subst hj0
    simp [bpos_singleton, List.count_cons]
  | a :: b :: t, hs, p, j, hj => by
    have hs' : (b :: t).Sorted (· ≤ ·) := (List.sorted_cons.mp hs).2
    by_cases hab : a = b
    · subst hab
      rw [List.destutter_cons_cons, if_neg (by simp), ← List.destutter_cons'] at hj ⊢
      rw [bpos_cons_cons, if_neg (by simp)]
      have e : p + (a :: a :: t).length = (p + 1) + (a :: t).length := by
        simp [List.length_cons]
        omega
      rw [e]
      cases j with
      | zero =>
        have hhead := head_ge (a :: t) (p + 1)
        have IH0 := bpos_count (a :: t) hs' (p + 1) 0 hj
        obtain ⟨tl, htl⟩ := destutter'_head (· ≠ ·) a t
        have hd : (a :: t).destutter (· ≠ ·) = a :: tl := by
          rw [List.destutter_cons', htl]
        rw [hd] at IH0 ⊢
        simp only [List.getD_cons_succ, List.getD_cons_zero, List.cons_append] at IH0 ⊢
        rw [List.count_cons]
        simp only [beq_self_eq_true, if_true]
        omega
      | succ j' =>
        have IHs := bpos_count (a :: t) hs' (p + 1) (j' + 1) hj
        simp only [List.getD_cons_succ, List.cons_append] at IHs ⊢
        rw [IHs]
        obtain ⟨tl, htl⟩ := destutter'_head (· ≠ ·) a t
        have hd : (a :: t).destutter (· ≠ ·) = a :: tl := by
          rw [List.destutter_cons', htl]
        have hdlt := destutter_sorted_lt (a :: t) hs'
        have hlen : j' + 1 < ((a :: t).destutter (· ≠ ·)).length := hj
        rw [hd] at hdlt hlen ⊢
        simp only [List.getD_cons_succ]
        have hj2 : j' < tl.length := by simpa using hlen
        have hvmem : tl.getD j' 0 ∈ tl := by
          rw [getD_of_lt _ _ _ hj2]
          exact List.getElem_mem hj2
        have hav : a < tl.getD j' 0 := (List.sorted_cons.mp hdlt).1 _ hvmem
        exact (List.count_cons_of_ne (ne_of_gt hav) (a :: t)).symm
    · have haltb : a < b :=
        lt_of_le_of_ne ((List.sorted_cons.mp hs).1 b (List.mem_cons_self _ _)) hab
      have hstrict : ∀ x ∈ b :: t, a < x := by
        intro x hx
        rcases List.mem_cons.1 hx with rfl | hx
        · exact haltb
        · exact lt_of_lt_of_le haltb ((List.sorted_cons.mp hs').1 x hx)
      have hnotin : a ∉ b :: t := fun h => lt_irrefl a (hstrict a h)
      rw [List.destutter_cons_cons, if_pos hab, ← List.destutter_cons'] at hj ⊢
      rw [bpos_cons_cons, if_pos hab]
      have e : p + (a :: b :: t).length = (p + 1) + (b :: t).length := by
        simp [List.length_cons]
        omega
      rw [e]
      cases j with
      | zero =>
        simp only [List.getD_cons_succ, List.getD_cons_zero, List.cons_append]
        rw [List.count_cons, List.count_eq_zero_of_not_mem hnotin]
        simp
      | succ j' =>
        have hj' : j' < ((b :: t).destutter (· ≠ ·)).length := by
          simp only [List.length_cons] at hj
          omega
        have IH := bpos_count (b :: t) hs' (p + 1) j' hj'
        simp only [List.getD_cons_succ, List.cons_append] at IH ⊢
        rw [IH]
        have hvmem : ((b :: t).destutter (· ≠ ·)).getD j' 0 ∈ b :: t := by
          rw [getD_of_lt _ _ _ hj']
          exact (List.destutter_sublist _ _).subset (List.getElem_mem hj')
        have hav : a ≠ ((b :: t).destutter (· ≠ ·)).getD j' 0 :=
          ne_of_lt (hstrict _ hvmem)
        exact (List.count_cons_of_ne (Ne.symm hav) (b :: t)).symm



theorem foldF (s : List ℤ) (n : ℕ) :
    ∀ (is : List ℕ) (ws : List ℕ), ws.length + is.length ≤ n →
      is.foldl (fun acc i =>
        acc.bind fun ws =>
          if s.getD i 0 ≠ s.getD (i + 1) 0 then
            if ws.length + 1 < n + 1 then some (ws ++ [i + 1]) else none
          else some ws) (some ws)
      = some (ws ++ (is.filter (fun i => s.getD i 0 ≠ s.getD (i + 1) 0)).map (· + 1))
  | [], ws, _ => by simp
  | i :: is, ws, h => by
    rw [List.foldl_cons, List.filter_cons, Option.some_bind]
    by_cases hp : s.getD i 0 ≠ s.getD (i + 1) 0
    · rw [if_pos hp, if_pos (show ws.length + 1 < n + 1 by
        simp only [List.length_cons] at h; omega)]
      rw [foldF s n is (ws ++ [i + 1]) (by
        simp at h ⊢
        omega)]
      rw [if_pos (by simpa using hp)]
      simp
    · rw [if_neg hp]
      rw [foldF s n is ws (by
        simp only [List.length_cons] at h
        omega)]
      rw [if_neg (by simpa using hp)]



theorem basePos_cons_cons (a b : ℤ) (t : List ℤ) :
    basePos (a :: b :: t)
      = (if a ≠ b then [1] else []) ++ (basePos (b :: t)).map (· + 1) := by
  have hfilter :
      List.filter ((fun i => decide ((a :: b :: t).getD i 0 ≠ (a :: b :: t).getD (i + 1) 0))
          ∘ Nat.succ) (List.range t.length)
        = List.filter (fun i => decide ((b :: t).getD i 0 ≠ (b :: t).getD (i + 1) 0))
            (List.range t.length) :=
    List.filter_congr (fun i _ => rfl)
  unfold basePos
  simp only [List.length_cons]
  rw [show t.length + 1 + 1 - 1 = t.length + 1 from rfl,
      show t.length + 1 - 1 = t.length from rfl,
      List.range_succ_eq_map, List.filter_cons, List.filter_map, hfilter]
  by_cases hab : a ≠ b
  · rw [if_pos (by exact decide_eq_true hab), if_pos hab]
    rw [List.map_cons]
    simp only [List.map_map, List.singleton_append]
  · rw [if_neg (by simpa using hab), if_neg hab]
    simp only [List.map_map, List.nil_append]

theorem bpos_eq_basePos : ∀ (s : List ℤ) (p : ℕ),
    bpos s p = (basePos s).map (· + p)
  | [], p => by simp [bpos_nil, basePos]
  | [a], p => by simp [bpos_singleton, basePos]
  | a :: b :: t, p => by
    rw [bpos_cons_cons, basePos_cons_cons, bpos_eq_basePos (b :: t) (p + 1)]
    by_cases hab : a ≠ b
    · rw [if_pos hab, if_pos hab]
      simp only [List.map_append, List.map_cons, List.map_nil, List.map_map,
        List.singleton_append]
      congr 1
      · omega
      · exact List.map_congr_left (fun x _ => by
          simp only [Function.comp_apply]
          omega)
    · rw [if_neg hab, if_neg hab]
      simp only [List.nil_append, List.map_map]
      exact List.map_congr_left (fun x _ => by
        simp only [Function.comp_apply]
        omega)

theorem bpos_zero (s : List ℤ) : bpos s 0 = basePos s := by
  rw [bpos_eq_basePos]
  simp

theorem getD_last_aux (ws : List ℕ) (x : ℕ) :
    ((0 :: ws) ++ [x]).getD (ws.length + 1) 0 = x := by
  have hlt : ws.length + 1 < ((0 :: ws) ++ [x]).length := by simp
  rw [getD_of_lt _ _ _ hlt]
  exact List.getElem_concat_length (0 :: ws) x _ (by simp) _



theorem sort_cells_eq (cells : List ℤ) (hne : cells ≠ []) :
    sort_cells cells
      = some (argsort_radix cells,
          ((argsort_radix cells).map (fun i => cells.getD i 0)).destutter (· ≠ ·),
          0 :: bpos ((argsort_radix cells).map (fun i => cells.getD i 0)) 0
            ++ [cells.length]) := by
  have hn : 1 ≤ cells.length := List.length_pos.mpr hne
  simp only [sort_cells]
  set s := (argsort_radix cells).map (fun i => cells.getD i 0) with hs
  have hsl : s.length = cells.length := by
    rw [hs]
    simp [argsort_radix, List.length_insertionSort]
  have hsne : s ≠ [] := by
    intro h
    rw [h] at hsl
    simp at hsl
    omega
  rw [foldF s cells.length (List.range (cells.length - 1)) [] (by simp)]
  simp only [Option.some_bind]
  have hws : (([] : List ℕ) ++ ((List.range (cells.length - 1)).filter
      (fun i => s.getD i 0 ≠ s.getD (i + 1) 0)).map (· + 1)) = bpos s 0 := by
    rw [List.nil_append, bpos_zero]
    unfold basePos
    rw [hsl]
  rw [hws]
  have hlen2 : (bpos s 0).length + 1 = (s.destutter (· ≠ ·)).length :=
    bpos_length s hsne 0
  have hdlen : (s.destutter (· ≠ ·)).length ≤ cells.length := by
    calc (s.destutter (· ≠ ·)).length
        ≤ s.length := (List.destutter_sublist _ _).length_le
      _ = cells.length := hsl
  rw [if_pos (show (bpos s 0).length + 1 < cells.length + 1 by omega)]
  have htake : ((0 :: bpos s 0 ++ [cells.length])
      ++ List.replicate (cells.length - 1 - (bpos s 0).length) 0).take
        ((s.destutter (· ≠ ·)).length + 1)
      = 0 :: bpos s 0 ++ [cells.length] := by
    apply List.take_left'
    simp only [List.length_cons, List.length_append, List.length_singleton,
      List.length_nil]
    omega
  rw [htake]

theorem range_map_getD (l : List ℤ) :
    (List.range l.length).map (fun i => l.getD i 0) = l := by
  apply List.ext_getElem
  · simp
  · intro i h1 h2
    simp only [List.getElem_map, List.getElem_range]
    exact getD_of_lt _ _ _ h2

theorem map_range_getD (l : List ℤ) (f : ℤ → ℕ) :
    (List.range l.length).map (fun j => f (l.getD j 0)) = l.map f := by
  conv_rhs => rw [← range_map_getD l]
  rw [List.map_map]
  exact List.map_congr_left (fun j _ => rfl)

theorem sorted_mapped (cells : List ℤ) :
    ((argsort_radix cells).map (fun i => cells.getD i 0)).Sorted (· ≤ ·) := by
  have hps : (argsort_radix cells).Sorted (argLex cells) :=
    List.sorted_insertionSort (argLex cells) (List.range cells.length)
  exact List.Pairwise.map (fun i => cells.getD i 0)
    (fun i j h => by
      rcases h with h | ⟨h, _⟩
      · exact le_of_lt h
      · exact le_of_eq h) hps

theorem perm_mapped (cells : List ℤ) :
    List.Perm ((argsort_radix cells).map (fun i => cells.getD i 0)) cells := by
  have h1 : List.Perm (argsort_radix cells) (List.range cells.length) :=
    List.perm_insertionSort (argLex cells) (List.range cells.length)
  have h2 := h1.map (fun i => cells.getD i 0)
  rw [range_map_getD] at h2
  exact h2



/-- C2 (amended to non-empty input): for every non-empty input array of
entity indices, `sort_cells` returns a sorted unique entity list containing
exactly the distinct input values and an offsets array delimiting contiguous
runs, with `offsets[0] = 0`, `offsets[m] = len(input)`,
`offsets[i+1] - offsets[i]` the number of occurrences of `unique[i]` in the
input, the sum of the differences the input length, and a permutation that
sorts the input into ascending order. -/
theorem sort_cells_spec (cells : List ℤ) (hne : cells ≠ []) :
    ∃ perm unique_cells offsets,
      sort_cells cells = some (perm, unique_cells, offsets) ∧
      unique_cells.Sorted (· < ·) ∧
      (∀ x, x ∈ unique_cells ↔ x ∈ cells) ∧
      offsets.length = unique_cells.length + 1 ∧
      offsets.getD 0 0 = 0 ∧
      offsets.getD unique_cells.length 0 = cells.length ∧
      (∀ j, j < unique_cells.length →
        offsets.getD (j + 1) 0 - offsets.getD j 0
          = cells.count (unique_cells.getD j 0)) ∧
      ((List.range unique_cells.length).map
        (fun j => offsets.getD (j + 1) 0 - offsets.getD j 0)).sum = cells.length ∧
      perm.length = cells.length ∧
      (perm.map (fun i => cells.getD i 0)).Sorted (· ≤ ·) ∧
      List.Perm (perm.map (fun i => cells.getD i 0)) cells := by
  have hsorted := sorted_mapped cells
  have hperm := perm_mapped cells
  have hsl : ((argsort_radix cells).map (fun i => cells.getD i 0)).length
      = cells.length := by
    simp [argsort_radix, List.length_insertionSort]
  have hsne : (argsort_radix cells).map (fun i => cells.getD i 0) ≠ [] := by
    intro h
    apply hne
    rw [h] at hperm
    exact (hperm.symm).eq_nil
  set s := (argsort_radix cells).map (fun i => cells.getD i 0) with hs
  have hlen2 : (bpos s 0).length + 1 = (s.destutter (· ≠ ·)).length :=
    bpos_length s hsne 0
  have hcount : ∀ j, j < (s.destutter (· ≠ ·)).length →
      (0 :: bpos s 0 ++ [cells.length]).getD (j + 1) 0
        - (0 :: bpos s 0 ++ [cells.length]).getD j 0
      = cells.count ((s.destutter (· ≠ ·)).getD j 0) := by
    intro j hj
    have hc := bpos_count s hsorted 0 j hj
    rw [Nat.zero_add, hsl] at hc
    rw [hc]
    exact hperm.count_eq _
  refine ⟨argsort_radix cells, s.destutter (· ≠ ·), 0 :: bpos s 0 ++ [cells.length],
    sort_cells_eq cells hne, destutter_sorted_lt s hsorted, ?_, ?_, rfl, ?_, hcount,
    ?_, ?_, hsorted, hperm⟩
  · intro x
    constructor
    · intro hx
      exact hperm.mem_iff.mp ((List.destutter_sublist _ _).subset hx)
    · intro hx
      exact mem_destutter_of_sorted s hsorted x (hperm.mem_iff.mpr hx)
  · simp only [List.length_cons, List.length_append, List.length_singleton,
      List.length_nil]
    omega
  · rw [← hlen2]
    exact getD_last_aux (bpos s 0) cells.length
  · rw [List.map_congr_left (fun j hj => hcount j (List.mem_range.mp hj)),
      map_range_getD (s.destutter (· ≠ ·)) (fun v => cells.count v),
      List.map_congr_left (fun v _ => ((hperm.count_eq v).symm : cells.count v = s.count v)),
      destutter_count_sum s hsorted, hsl]
  · simp [argsort_radix, List.length_insertionSort]

/-- C2 counterexample: on the empty input the unconditional final write
`offsets[index + 1] = num_cells` targets position 1 of the length-1 offsets
vector — out of bounds — so the model produces no result; the claim as
stated fails for the empty input array. -/
theorem sort_cells_empty : sort_cells ([] : List ℤ) = none := by decide

/-- C10: every index the permutation holds is in bounds, and for every
non-empty input every write to `offsets` (the only out-of-bounds-capable
accesses, checked inside the model) is within bounds, so a result is
produced; with an empty input the final write `offsets[index + 1]` has no
valid position (the offsets vector has length one) and the model yields
`none` — non-empty input is a necessary precondition. -/
theorem sort_cells_bounds (cells : List ℤ) :
    (∀ i ∈ argsort_radix cells, i < cells.length) ∧
    (cells ≠ [] → (sort_cells cells).isSome = true) ∧
    sort_cells ([] : List ℤ) = none := by
  refine ⟨?_, ?_, by decide⟩
  · intro i hi
    have h1 : List.Perm (argsort_radix cells) (List.range cells.length) :=
      List.perm_insertionSort (argLex cells) (List.range cells.length)
    exact List.mem_range.mp (h1.mem_iff.mp hi)
  · intro h
    rw [sort_cells_eq cells h]
    rfl

/-- Closed witness for `sort_cells_bounds` at the spec's example input. -/
theorem sort_cells_bounds_witness :
    (3 : ℕ) ∈ argsort_radix [5, 3, 5, 1, 3] ∧
    (3 : ℕ) < ([5, 3, 5, 1, 3] : List ℤ).length ∧
    ([5, 3, 5, 1, 3] : List ℤ) ≠ [] ∧
    (sort_cells [5, 3, 5, 1, 3]).isSome = true :=
  ⟨by decide,
   (sort_cells_bounds [5, 3, 5, 1, 3]).1 3 (by decide),
   by decide,
   (sort_cells_bounds [5, 3, 5, 1, 3]).2.1 (by decide)⟩



/-- Closed witness for `sort_cells_spec` at the spec's example input
`[5, 3, 5, 1, 3]`. -/
theorem sort_cells_spec_witness :
    ([5, 3, 5, 1, 3] : List ℤ) ≠ [] ∧
    (∃ perm unique_cells offsets,
      sort_cells [5, 3, 5, 1, 3] = some (perm, unique_cells, offsets) ∧
      unique_cells.Sorted (· < ·) ∧
      (∀ x, x ∈ unique_cells ↔ x ∈ ([5, 3, 5, 1, 3] : List ℤ)) ∧
      offsets.length = unique_cells.length + 1 ∧
      offsets.getD 0 0 = 0 ∧
      offsets.getD unique_cells.length 0 = ([5, 3, 5, 1, 3] : List ℤ).length ∧
      (∀ j, j < unique_cells.length →
        offsets.getD (j + 1) 0 - offsets.getD j 0
          = ([5, 3, 5, 1, 3] : List ℤ).count (unique_cells.getD j 0)) ∧
      ((List.range unique_cells.length).map
        (fun j => offsets.getD (j + 1) 0 - offsets.getD j 0)).sum
        = ([5, 3, 5, 1, 3] : List ℤ).length ∧
      perm.length = ([5, 3, 5, 1, 3] : List ℤ).length ∧
      (perm.map (fun i => ([5, 3, 5, 1, 3] : List ℤ).getD i 0)).Sorted (· ≤ ·) ∧
      List.Perm (perm.map (fun i => ([5, 3, 5, 1, 3] : List ℤ).getD i 0))
        [5, 3, 5, 1, 3]) :=
  ⟨by decide, sort_cells_spec [5, 3, 5, 1, 3] (by decide)⟩

theorem foldl_addSet {R : Type} [CommRing R] (idx : (ℕ × ℕ × ℕ × ℕ × ℕ) → ℕ)
    (v : (ℕ × ℕ × ℕ × ℕ × ℕ) → R) :
    ∀ (ts : List (ℕ × ℕ × ℕ × ℕ × ℕ)) (init : List R),
      (∀ t ∈ ts, idx t < init.length) → ∀ (j : ℕ),
      (ts.foldl (fun acc t => acc.set (idx t) (acc.getD (idx t) 0 + v t)) init).getD j 0
        = init.getD j 0 + ((ts.filter (fun t => idx t == j)).map v).sum
  | [], init, _, j => by simp
  | t :: ts, init, h, j => by
    rw [List.foldl_cons, List.filter_cons,
      foldl_addSet idx v ts (init.set (idx t) (init.getD (idx t) 0 + v t))
        (fun u hu => by
          rw [List.length_set]
          exact h u (List.mem_cons_of_mem _ hu)) j]
    have hlt : idx t < init.length := h t (List.mem_cons_self _ _)
    by_cases hj : idx t = j
    · rw [if_pos (by simpa using hj), List.map_cons, List.sum_cons]
      have hset : (init.set (idx t) (init.getD (idx t) 0 + v t)).getD j 0
          = init.getD j 0 + v t := by
        subst hj
        rw [getD_of_lt _ _ _ (by rw [List.length_set]; exact hlt),
          List.getElem_set_self, getD_of_lt _ _ _ hlt]
      rw [hset]
      ring
    · rw [if_neg (by simpa using hj)]
      have hset : (init.set (idx t) (init.getD (idx t) 0 + v t)).getD j 0
          = init.getD j 0 := by
        by_cases hjl : j < init.length
        · rw [getD_of_lt _ _ _ (by rw [List.length_set]; exact hjl),
            getD_of_lt _ _ _ hjl]
          exact List.getElem_set_ne hj _
        · rw [getD_of_le _ _ _ (by rw [List.length_set]; omega),
            getD_of_le _ _ _ (by omega)]
      rw [hset]

theorem sum_filter_map {T R : Type} [CommRing R] (p : T → Bool) (v : T → R) (l : List T) :
    ((l.filter p).map v).sum = (l.map (fun t => if p t then v t else 0)).sum := by
  induction l with
  | nil => rfl
  | cons t ts ih =>
    rw [List.filter_cons]
    by_cases h : p t <;> simp [h, ih]

theorem sum_map_flatMap {α β R : Type} [CommRing R] (l : List α) (g : α → List β)
    (f : β → R) :
    ((l.flatMap g).map f).sum = (l.map (fun a => ((g a).map f).sum)).sum := by
  induction l with
  | nil => rfl
  | cons a l ih => simp [List.flatMap_cons, ih]

theorem sum_range_eq_single {R : Type} [CommRing R] (f : ℕ → R) :
    ∀ (n i0 : ℕ), i0 < n → (∀ i, i < n → i ≠ i0 → f i = 0) →
      ((List.range n).map f).sum = f i0
  | 0, i0, h, _ => absurd h (Nat.not_lt_zero _)
  | n + 1, i0, h, hz => by
    rw [List.range_succ, List.map_append, List.sum_append]
    by_cases hi : i0 = n
    · subst hi
      have hzz : ((List.range i0).map f).sum = 0 := by
        rw [List.map_congr_left (fun i hi2 =>
          hz i (by have := List.mem_range.mp hi2; omega)
            (by have := List.mem_range.mp hi2; omega))]
        simp
      simp [hzz]
    · have hi0 : i0 < n := by omega
      rw [sum_range_eq_single f n i0 hi0 (fun i h1 h2 => hz i (by omega) h2)]
      have hfn : f n = 0 := hz n (by omega) (by omega)
      simp [hfn]

theorem sum_map_mul_const {T R : Type} [CommRing R] (l : List T) (f : T → R) (c : R) :
    (l.map (fun x => f x * c)).sum = (l.map f).sum * c := by
  induction l with
  | nil => simp
  | cons x xs ih => simp [ih, add_mul]

theorem block_index_eq {C a r a' r' : ℕ} (hr : r < C) (hr' : r' < C)
    (h : a * C + r = a' * C + r') : a = a' ∧ r = r' := by
  have ha : a = a' := by
    by_contra hne
    rcases Nat.lt_or_ge a a' with hlt | hge
    · have h2 : (a + 1) * C ≤ a' * C := Nat.mul_le_mul_right C hlt
      have h3 : a * C + C ≤ a' * C := by
        rw [← Nat.succ_mul]
        exact h2
      omega
    · have hlt : a' < a := by omega
      have h2 : (a' + 1) * C ≤ a * C := Nat.mul_le_mul_right C hlt
      have h3 : a' * C + C ≤ a * C := by
        rw [← Nat.succ_mul]
        exact h2
      omega
  subst ha
  omega

theorem kl_lt {k l b v : ℕ} (hk : k < b) (hl : l < v) : k + l < b * v := by
  obtain ⟨m, rfl⟩ : ∃ m, b = m + 1 := ⟨b - 1, by omega⟩
  obtain ⟨n, rfl⟩ : ∃ n, v = n + 1 := ⟨v - 1, by omega⟩
  have hexp : (m + 1) * (n + 1) = m * n + m + n + 1 := by ring
  omega




theorem range_one' : List.range 1 = [0] := rfl

theorem getD_replicate_zero {R : Type} [CommRing R] (n j : ℕ) :
    (List.replicate n (0 : R)).getD j 0 = 0 := by
  by_cases h : j < n
  · rw [getD_of_lt _ _ _ (by simpa using h)]
    simp
  · rw [getD_of_le _ _ _ (by simp; omega)]

theorem pack_index_lt {R : Type} (ctx : PackCtx R) {i d q k l : ℕ}
    (hi : i < ctx.num_active) (hq : q < ctx.num_points)
    (hk : k < ctx.bs) (hl : l < ctx.vs) :
    pack_index ctx (i, d, q, k, l)
      < ctx.num_active * ctx.vs * ctx.bs * ctx.num_points := by
  unfold pack_index cstride
  simp only
  have hkl := kl_lt hk hl
  have h1 : q * (ctx.bs * ctx.vs) + (ctx.bs * ctx.vs)
      ≤ ctx.num_points * (ctx.bs * ctx.vs) := by
    rw [← Nat.succ_mul]
    exact Nat.mul_le_mul_right _ (by omega)
  have h2 : ctx.vs * ctx.bs * ctx.num_points * i + ctx.vs * ctx.bs * ctx.num_points
      ≤ ctx.vs * ctx.bs * ctx.num_points * ctx.num_active := by
    rw [← Nat.mul_succ]
    exact Nat.mul_le_mul_left _ (by omega)
  have heqA : ctx.num_points * (ctx.bs * ctx.vs)
      = ctx.vs * ctx.bs * ctx.num_points := by ring
  have heqB : ctx.vs * ctx.bs * ctx.num_points * ctx.num_active
      = ctx.num_active * ctx.vs * ctx.bs * ctx.num_points := by ring
  omega

theorem block_index_eq' {C a r a' r' : ℕ} (hr : r < C) (hr' : r' < C)
    (h : C * a + r = C * a' + r') : a = a' ∧ r = r' := by
  apply block_index_eq hr hr'
  rw [Nat.mul_comm a C, Nat.mul_comm a' C]
  exact h

/-- C1 (amended to block size 1 or value size 1): for every mesh, quadrature
degree, supported integral type and list of active entities — abstracted as
an arbitrary `PackCtx` whose `get_cell_info` covers both the cell and the
exterior-facet dispatch — if the element's per-component basis sums to one
at every quadrature point (constants are reproduced) and the field's dof
values are the constant `c`, and `bs = 1` or `vs = 1` (so that the `k + l`
component indexing of the source is injective), then every entry of the
packed buffer — every entity `i0`, quadrature point `q0` and component
`s < bs * vs` — equals exactly `c`. -/
theorem pack_coefficient_quadrature_constant {R : Type} [CommRing R]
    (ctx : PackCtx R) (c : R)
    (hbsvs : ctx.bs = 1 ∨ ctx.vs = 1)
    (hpou : ∀ i, i < ctx.num_active → ∀ q, q < ctx.num_points → ∀ l, l < ctx.vs →
      ((List.range (ctx.cell_dofs (ctx.get_cell_info i).1).length).map
        (fun d => effective_basis ctx (ctx.get_cell_info i).1
          (ctx.get_cell_info i).2 q d l)).sum = 1)
    (hdata : ∀ i, i < ctx.num_active →
      ∀ d, d < (ctx.cell_dofs (ctx.get_cell_info i).1).length → ∀ k, k < ctx.bs →
      ctx.data.getD
        (ctx.bs * (ctx.cell_dofs (ctx.get_cell_info i).1).getD d 0 + k) 0 = c)
    (i0 q0 s : ℕ) (hi0 : i0 < ctx.num_active) (hq0 : q0 < ctx.num_points)
    (hs : s < ctx.bs * ctx.vs) :
    (pack_coefficient_quadrature ctx).getD
      (cstride ctx * i0 + q0 * (ctx.bs * ctx.vs) + s) 0 = c := by
  have hbv : 0 < ctx.bs * ctx.vs := by omega
  have hbpos : 0 < ctx.bs := by
    rcases Nat.eq_zero_or_pos ctx.bs with h | h
    · rw [h] at hbv
      simp at hbv
    · exact h
  have hvpos : 0 < ctx.vs := by
    rcases Nat.eq_zero_or_pos ctx.vs with h | h
    · rw [h] at hbv
      simp at hbv
    · exact h
  have hinner_lt : ∀ q k l : ℕ, q < ctx.num_points → k < ctx.bs → l < ctx.vs →
      q * (ctx.bs * ctx.vs) + k + l < cstride ctx := by
    intro q k l hq hk hl
    have hkl := kl_lt hk hl
    have h1 : q * (ctx.bs * ctx.vs) + (ctx.bs * ctx.vs)
        ≤ ctx.num_points * (ctx.bs * ctx.vs) := by
      rw [← Nat.succ_mul]
      exact Nat.mul_le_mul_right _ (by omega)
    have heqA : ctx.num_points * (ctx.bs * ctx.vs)
        = ctx.vs * ctx.bs * ctx.num_points := by ring
    unfold cstride
    omega
  have hidx_iff : ∀ i d q k l : ℕ, q < ctx.num_points → k < ctx.bs → l < ctx.vs →
      (pack_index ctx (i, d, q, k, l)
          = cstride ctx * i0 + q0 * (ctx.bs * ctx.vs) + s
        ↔ (i = i0 ∧ q = q0 ∧ k + l = s)) := by
    intro i d q k l hq hk hl
    unfold pack_index
    simp only
    constructor
    · intro he
      have hin1 : q * (ctx.bs * ctx.vs) + k + l < cstride ctx :=
        hinner_lt q k l hq hk hl
      have hin2 : q0 * (ctx.bs * ctx.vs) + s < cstride ctx := by
        have h1 : q0 * (ctx.bs * ctx.vs) + (ctx.bs * ctx.vs)
            ≤ ctx.num_points * (ctx.bs * ctx.vs) := by
          rw [← Nat.succ_mul]
          exact Nat.mul_le_mul_right _ (by omega)
        have heqA : ctx.num_points * (ctx.bs * ctx.vs)
            = ctx.vs * ctx.bs * ctx.num_points := by ring
        unfold cstride
        omega
      have he' : cstride ctx * i + (q * (ctx.bs * ctx.vs) + k + l)
          = cstride ctx * i0 + (q0 * (ctx.bs * ctx.vs) + s) := by omega
      obtain ⟨hii, hrest⟩ := block_index_eq' hin1 hin2 he'
      have hkl := kl_lt hk hl
      have hr2 : q * (ctx.bs * ctx.vs) + (k + l)
          = q0 * (ctx.bs * ctx.vs) + s := by omega
      obtain ⟨hqq, hkls⟩ := block_index_eq hkl hs hr2
      exact ⟨hii, hqq, hkls⟩
    · rintro ⟨rfl, rfl, hkls⟩
      omega
  unfold pack_coefficient_quadrature
  rw [foldl_addSet (pack_index ctx) (pack_value ctx) (pack_iter ctx) _
    (by
      intro t ht
      rw [List.length_replicate]
      simp only [pack_iter, List.mem_flatMap, List.mem_map, List.mem_range] at ht
      obtain ⟨i, hi, d, hd, q, hq, k, hk, l, hl, rfl⟩ := ht
      exact pack_index_lt ctx hi hq hk hl)
    (cstride ctx * i0 + q0 * (ctx.bs * ctx.vs) + s)]
  rw [getD_replicate_zero, zero_add, sum_filter_map]
  unfold pack_iter
  rw [sum_map_flatMap]
  refine Eq.trans (sum_range_eq_single _ ctx.num_active i0 hi0 ?_) ?_
  · intro i hi hne
    have hz : ∀ t ∈ (List.range (ctx.cell_dofs (ctx.get_cell_info i).1).length).flatMap
        (fun d => (List.range ctx.num_points).flatMap fun q =>
          (List.range ctx.bs).flatMap fun k =>
            (List.range ctx.vs).map fun l => (i, d, q, k, l)),
        (if (pack_index ctx t
            == cstride ctx * i0 + q0 * (ctx.bs * ctx.vs) + s) = true
          then pack_value ctx t else 0) = 0 := by
      intro t ht
      simp only [List.mem_flatMap, List.mem_map, List.mem_range] at ht
      obtain ⟨d, hd, q, hq, k, hk, l, hl, rfl⟩ := ht
      have hno : ¬ (pack_index ctx (i, d, q, k, l)
          = cstride ctx * i0 + q0 * (ctx.bs * ctx.vs) + s) := fun he =>
        hne ((hidx_iff i d q k l hq hk hl).mp he).1
      simp [hno]
    rw [List.map_congr_left hz]
    simp
  · rcases hbsvs with hb1 | hv1
    · -- bs = 1: k is forced to 0, the component index is l = s
      have hs' : s < ctx.vs := by
        rw [hb1] at hs
        simpa using hs
      rw [sum_map_flatMap]
      have hperd : ∀ d ∈ List.range
          (ctx.cell_dofs (ctx.get_cell_info i0).1).length,
          (((List.range ctx.num_points).flatMap fun q =>
            (List.range ctx.bs).flatMap fun k =>
              (List.range ctx.vs).map fun l => (i0, d, q, k, l)).map
            (fun t => if (pack_index ctx t
                == cstride ctx * i0 + q0 * (ctx.bs * ctx.vs) + s) = true
              then pack_value ctx t else 0)).sum
          = effective_basis ctx (ctx.get_cell_info i0).1
              (ctx.get_cell_info i0).2 q0 d s * c := by
        intro d hd
        rw [sum_map_flatMap]
        refine Eq.trans (sum_range_eq_single _ ctx.num_points q0 hq0 ?_) ?_
        · intro q hq hqne
          have hz : ∀ t ∈ (List.range ctx.bs).flatMap
              (fun k => (List.range ctx.vs).map fun l => (i0, d, q, k, l)),
              (if (pack_index ctx t
                  == cstride ctx * i0 + q0 * (ctx.bs * ctx.vs) + s) = true
                then pack_value ctx t else 0) = 0 := by
            intro t ht
            simp only [List.mem_flatMap, List.mem_map, List.mem_range] at ht
            obtain ⟨k, hk, l, hl, rfl⟩ := ht
            have hno : ¬ (pack_index ctx (i0, d, q, k, l)
                = cstride ctx * i0 + q0 * (ctx.bs * ctx.vs) + s) := fun he =>
              hqne ((hidx_iff i0 d q k l hq hk hl).mp he).2.1
            simp [hno]
          rw [List.map_congr_left hz]
          simp
        · rw [show List.range ctx.bs = [0] by simp [hb1, range_one']]
          simp only [List.flatMap_cons, List.flatMap_nil,
            List.append_nil, List.map_map]
          refine Eq.trans (sum_range_eq_single _ ctx.vs s hs' ?_) ?_
          · intro l hl hlne
            have hno : ¬ (pack_index ctx (i0, d, q0, 0, l)
                = cstride ctx * i0 + q0 * (ctx.bs * ctx.vs) + s) := fun he => by
              have := ((hidx_iff i0 d q0 0 l hq0 (by omega) hl).mp he).2.2
              omega
            simp [Function.comp, hno]
          · have hcond : pack_index ctx (i0, d, q0, 0, s)
                = cstride ctx * i0 + q0 * (ctx.bs * ctx.vs) + s :=
              (hidx_iff i0 d q0 0 s hq0 (by omega) hs').mpr ⟨rfl, rfl, by omega⟩
            simp only [Function.comp_apply, hcond, beq_self_eq_true, if_true]
            unfold pack_value
            simp only
            rw [hdata i0 hi0 d (List.mem_range.mp hd) 0 (by omega)]
      rw [List.map_congr_left hperd, sum_map_mul_const,
        hpou i0 hi0 q0 hq0 s hs', one_mul]
    · -- vs = 1: l is forced to 0, the component index is k = s
      have hs' : s < ctx.bs := by
        rw [hv1] at hs
        simpa using hs
      rw [sum_map_flatMap]
      have hperd : ∀ d ∈ List.range
          (ctx.cell_dofs (ctx.get_cell_info i0).1).length,
          (((List.range ctx.num_points).flatMap fun q =>
            (List.range ctx.bs).flatMap fun k =>
              (List.range ctx.vs).map fun l => (i0, d, q, k, l)).map
            (fun t => if (pack_index ctx t
                == cstride ctx * i0 + q0 * (ctx.bs * ctx.vs) + s) = true
              then pack_value ctx t else 0)).sum
          = effective_basis ctx (ctx.get_cell_info i0).1
              (ctx.get_cell_info i0).2 q0 d 0 * c := by
        intro d hd
        rw [sum_map_flatMap]
        refine Eq.trans (sum_range_eq_single _ ctx.num_points q0 hq0 ?_) ?_
        · intro q hq hqne
          have hz : ∀ t ∈ (List.range ctx.bs).flatMap
              (fun k => (List.range ctx.vs).map fun l => (i0, d, q, k, l)),
              (if (pack_index ctx t
                  == cstride ctx * i0 + q0 * (ctx.bs * ctx.vs) + s) = true
                then pack_value ctx t else 0) = 0 := by
            intro t ht
            simp only [List.mem_flatMap, List.mem_map, List.mem_range] at ht
            obtain ⟨k, hk, l, hl, rfl⟩ := ht
            have hno : ¬ (pack_index ctx (i0, d, q, k, l)
                = cstride ctx * i0 + q0 * (ctx.bs * ctx.vs) + s) := fun he =>
              hqne ((hidx_iff i0 d q k l hq hk hl).mp he).2.1
            simp [hno]
          rw [List.map_congr_left hz]
          simp
        · rw [sum_map_flatMap]
          refine Eq.trans (sum_range_eq_single _ ctx.bs s hs' ?_) ?_
          · intro k hk hkne
            rw [show List.range ctx.vs = [0] by simp [hv1, range_one']]
            simp only [List.map_cons, List.map_nil,
              List.sum_cons, List.sum_nil, List.map_map]
            have hno : ¬ (pack_index ctx (i0, d, q0, k, 0)
                = cstride ctx * i0 + q0 * (ctx.bs * ctx.vs) + s) := fun he => by
              have := ((hidx_iff i0 d q0 k 0 hq0 hk (by omega)).mp he).2.2
              omega
            simp [Function.comp, hno]
          · rw [show List.range ctx.vs = [0] by simp [hv1, range_one']]
            simp only [List.map_cons, List.map_nil,
              List.sum_cons, List.sum_nil, List.map_map]
            have hcond : pack_index ctx (i0, d, q0, s, 0)
                = cstride ctx * i0 + q0 * (ctx.bs * ctx.vs) + s :=
              (hidx_iff i0 d q0 s 0 hq0 hs' (by omega)).mpr ⟨rfl, rfl, by omega⟩
            simp only [Function.comp_apply, hcond, beq_self_eq_true, if_true]
            unfold pack_value
            simp only
            rw [hdata i0 hi0 d (List.mem_range.mp hd) s hs']
            ring
      rw [List.map_congr_left hperd, sum_map_mul_const,
        hpou i0 hi0 q0 hq0 0 (by omega), one_mul]




/-- C1 counterexample: with block size 2 and value size 2 (`ctxCex`), a
basis that reproduces constants and the constant field 1, the packed buffer
is `[1, 2, 1, 0]` — the entry at component 1 is 2 and the entry at
component 3 is 0, not the constant 1: the overlapping `k + l` indexing
(flagged in the spec as a likely latent bug) accumulates two contributions
into one slot and leaves another slot untouched. -/
theorem pack_coefficient_quadrature_cex :
    (¬ (ctxCex.bs = 1 ∨ ctxCex.vs = 1)) ∧
    (∀ i, i < ctxCex.num_active → ∀ q, q < ctxCex.num_points → ∀ l, l < ctxCex.vs →
      ((List.range (ctxCex.cell_dofs (ctxCex.get_cell_info i).1).length).map
        (fun d => effective_basis ctxCex (ctxCex.get_cell_info i).1
          (ctxCex.get_cell_info i).2 q d l)).sum = 1) ∧
    (∀ i, i < ctxCex.num_active →
      ∀ d, d < (ctxCex.cell_dofs (ctxCex.get_cell_info i).1).length →
      ∀ k, k < ctxCex.bs →
      ctxCex.data.getD
        (ctxCex.bs * (ctxCex.cell_dofs (ctxCex.get_cell_info i).1).getD d 0 + k) 0
        = 1) ∧
    0 < ctxCex.num_active ∧ 0 < ctxCex.num_points ∧
    1 < ctxCex.bs * ctxCex.vs ∧ 3 < ctxCex.bs * ctxCex.vs ∧
    (pack_coefficient_quadrature ctxCex).getD
      (cstride ctxCex * 0 + 0 * (ctxCex.bs * ctxCex.vs) + 1) 0 = 2 ∧
    (pack_coefficient_quadrature ctxCex).getD
      (cstride ctxCex * 0 + 0 * (ctxCex.bs * ctxCex.vs) + 3) 0 = 0 := by
  decide


/-- Closed witness for `pack_coefficient_quadrature_constant` at `ctxW`
(block size 1, value size 1, constant field 7). -/
theorem pack_coefficient_quadrature_constant_witness :
    (ctxW.bs = 1 ∨ ctxW.vs = 1) ∧
    (pack_coefficient_quadrature ctxW).getD
      (cstride ctxW * 0 + 0 * (ctxW.bs * ctxW.vs) + 0) 0 = 7 :=
  ⟨Or.inl rfl,
   pack_coefficient_quadrature_constant ctxW 7 (Or.inl rfl)
     (by decide) (by decide) 0 0 0 (by decide) (by decide) (by decide)⟩

end DolfinxContact
